import Mathlib

/-!
Verification development for the classifier training harness described by the
repository's design specification (ModelBuilder, Trainer, Evaluator,
ModelStore).  The repository's notebooks are orchestration over an external
deep-learning framework; the harness components themselves are not present as
source code, so each component below is modelled from the specification's
contract, with numeric tensors over `ℚ` and the real exponential replaced by a
strictly positive, strictly monotone rational surrogate where softmax/sigmoid
activations are needed.
-/

namespace Harness

/-- Modelled from the spec: activation functions appearing in the notebooks'
layer stacks (relu, softmax, sigmoid) plus the linear default. -/
inductive Activation where
  | relu
  | softmax
  | sigmoid
  | linear
deriving DecidableEq, Repr

/-- Modelled from the spec: padding modes for Conv2D / MaxPooling2D layers. -/
inductive Padding where
  | same
  | valid
deriving DecidableEq, Repr

/-- Modelled from the spec (§3): tagged variant over
{Dense(units, activation), Conv2D(filters, kernel_size, activation, padding),
MaxPool2D(pool_size, padding), Dropout(rate), Flatten}.  Integer fields are
`Int` so that the spec's "units ≤ 0" style invalid values are representable. -/
inductive LayerSpec where
  | dense (units : Int) (activation : Activation)
  | conv2d (filters : Int) (kernelSize : Int × Int) (activation : Activation) (padding : Padding)
  | maxPool2d (poolSize : Int × Int) (padding : Padding)
  | dropout (rate : ℚ)
  | flatten
deriving DecidableEq, Repr

/-- Modelled from the spec: learned parameters of a single layer, as the
external backend would own them.  A dense layer holds a weight matrix
(one row per output unit) and a bias vector; a conv layer holds a
k1 × k2 × inChannels × outChannels kernel and a per-filter bias; the other
layer kinds are parameter-free. -/
inductive LayerParams where
  | dense (w : List (List ℚ)) (b : List ℚ)
  | conv (kernel : List (List (List (List ℚ)))) (b : List ℚ)
  | free
deriving DecidableEq, Repr

/-- Modelled from the spec (§3): a ModelGraph is an ordered sequence of
LayerSpec plus an input shape descriptor; learned parameters are numeric
tensors kept parallel to the layer sequence. -/
structure ModelGraph where
  inputShape : List Nat
  layers : List LayerSpec
  params : List LayerParams
deriving DecidableEq, Repr

/-- Modelled from the spec (§7): ConfigError carries the offending field. -/
inductive ConfigError where
  | emptyLayerSequence
  | badDenseUnits (units : Int)
  | badConvFilters (filters : Int)
  | badKernelSize (k : Int × Int)
  | badPoolSize (p : Int × Int)
  | badDropoutRate (rate : ℚ)
  | badBatchSize (b : Nat)
  | unknownLoss (name : String)
  | unknownOptimizer (name : String)
  | unknownMetric (name : String)
deriving DecidableEq, Repr

/-- Modelled from the spec (§4.1): a single LayerSpec is valid unless it has
Dense units ≤ 0, Conv2D filters ≤ 0 or a kernel dimension ≤ 0, a MaxPool2D
pool dimension ≤ 0, or a Dropout rate outside [0,1). -/
def checkLayer : LayerSpec → Except ConfigError Unit
  | .dense u _ => if u ≤ 0 then .error (.badDenseUnits u) else .ok ()
  | .conv2d f (k1, k2) _ _ =>
      if f ≤ 0 then .error (.badConvFilters f)
      else if k1 ≤ 0 ∨ k2 ≤ 0 then .error (.badKernelSize (k1, k2))
      else .ok ()
  | .maxPool2d (p1, p2) _ =>
      if p1 ≤ 0 ∨ p2 ≤ 0 then .error (.badPoolSize (p1, p2)) else .ok ()
  | .dropout r => if 0 ≤ r ∧ r < 1 then .ok () else .error (.badDropoutRate r)
  | .flatten => .ok ()

/-- Modelled from the spec (§4.1): validate a whole layer sequence, rejecting
the empty sequence and any invalid layer. -/
def checkLayers (ls : List LayerSpec) : Except ConfigError Unit :=
  match ls with
  | [] => .error .emptyLayerSequence
  | _ => ls.foldr (fun l acc => do checkLayer l; acc) (.ok ())

/-- Modelled from the spec: zero-initialised parameters of the right kind for
each layer (the spec delegates the initialisation policy to the backend; only
the kind of tensor per layer matters here). -/
def initParams (l : LayerSpec) : LayerParams :=
  match l with
  | .dense _ _ => .dense [] []
  | .conv2d _ _ _ _ => .conv [] []
  | _ => .free

/-- Modelled from the spec (§4.1): ModelBuilder.  Given an ordered sequence of
LayerSpec and an input shape, produces a ModelGraph, rejecting invalid
specifications with a ConfigError and having no side effect other than
constructing the graph description. -/
def buildModel (ls : List LayerSpec) (inShape : List Nat) : Except ConfigError ModelGraph := do
  checkLayers ls
  .ok { inputShape := inShape, layers := ls, params := ls.map initParams }

/-- Modelled from the spec: a numeric value flowing through the graph is
either a flat vector (after Flatten / for Dense layers) or an
height × width × channels grid (for Conv2D / MaxPool2D layers). -/
inductive Tensor where
  | vec : List ℚ → Tensor
  | t3 : List (List (List ℚ)) → Tensor
deriving DecidableEq, Repr

/-- Modelled from the spec: rational surrogate for the real exponential used
by softmax/sigmoid — strictly positive and strictly monotone, which is all the
harness-level contracts rely on. -/
def expQ (v : ℚ) : ℚ := if 0 ≤ v then 1 + v else 1 / (1 - v)

/-- Modelled from the spec: softmax normalisation of a score vector, with
`expQ` in place of the real exponential. -/
def softmaxQ (xs : List ℚ) : List ℚ :=
  xs.map (fun v => expQ v / (xs.map expQ).sum)

/-- Modelled from the spec: sigmoid with `expQ` in place of the exponential. -/
def sigmoidQ (v : ℚ) : ℚ := expQ v / (1 + expQ v)

/-- Modelled from the spec: apply an activation function to a score vector. -/
def applyAct : Activation → List ℚ → List ℚ
  | .relu, xs => xs.map (fun v => max v 0)
  | .softmax, xs => softmaxQ xs
  | .sigmoid, xs => xs.map sigmoidQ
  | .linear, xs => xs

/-- Dot product of two rational vectors. -/
def dot (r x : List ℚ) : ℚ := (List.zipWith (fun a b => a * b) r x).sum

/-- Modelled from the spec: a Dense(n) layer computes an affine map followed by
its activation; the weight matrix must have exactly n rows (one per unit), a
matching bias, and rows the length of the input. -/
def denseApply (n : Int) (act : Activation) (w : List (List ℚ)) (b : List ℚ)
    (x : List ℚ) : Option (List ℚ) :=
  if w.length = n.toNat ∧ b.length = n.toNat ∧ ∀ r ∈ w, r.length = x.length then
    some (applyAct act (List.zipWith (fun r bi => dot r x + bi) w b))
  else none

/-- Look up a grid entry, treating out-of-range indices as zero padding. -/
def getAt3 (g : List (List (List ℚ))) (i j : Int) (c : Nat) : ℚ :=
  if i < 0 ∨ j < 0 then 0
  else ((((g.get? i.toNat).bind (fun row => row.get? j.toNat)).bind
    (fun px => px.get? c)).getD 0)

/-- Modelled from the spec: stride-1 2D convolution with zero padding in
'same' mode; kernel indexed k1 × k2 × inChannels × outChannels. -/
def convApply (kernel : List (List (List (List ℚ)))) (b : List ℚ)
    (k1 k2 : Nat) (pad : Padding) (g : List (List (List ℚ))) :
    List (List (List ℚ)) :=
  let h := g.length
  let w := (g.headD []).length
  let inC := ((g.headD []).headD []).length
  let outC := b.length
  let pt : Int := if pad = .same then ((k1 : Int) - 1) / 2 else 0
  let pl : Int := if pad = .same then ((k2 : Int) - 1) / 2 else 0
  let oh := if pad = .same then h else h + 1 - k1
  let ow := if pad = .same then w else w + 1 - k2
  (List.range oh).map fun i =>
    (List.range ow).map fun j =>
      (List.range outC).map fun o =>
        b.getD o 0 +
        ((List.range k1).map fun (di : Nat) =>
          ((List.range k2).map fun (dj : Nat) =>
            ((List.range inC).map fun (c : Nat) =>
              getAt3 g ((i : Int) + (di : Int) - pt) ((j : Int) + (dj : Int) - pl) c *
                ((((kernel.getD di []).getD dj []).getD c []).getD o 0)).sum).sum).sum

/-- Modelled from the spec: max pooling over p1 × p2 windows; in 'same' mode
partial windows at the border are pooled over their in-bounds entries. -/
def poolApply (p1 p2 : Nat) (pad : Padding) (g : List (List (List ℚ))) :
    List (List (List ℚ)) :=
  let h := g.length
  let w := (g.headD []).length
  let ch := ((g.headD []).headD []).length
  let oh := if pad = .same then (h + p1 - 1) / p1 else h / p1
  let ow := if pad = .same then (w + p2 - 1) / p2 else w / p2
  (List.range oh).map fun i =>
    (List.range ow).map fun j =>
      (List.range ch).map fun c =>
        let idx := ((List.range p1).map fun di =>
          (List.range p2).map fun dj => (i * p1 + di, j * p2 + dj)).flatten
        let inb := idx.filter (fun q => q.1 < h && q.2 < w)
        let vals := inb.map (fun q => getAt3 g q.1 q.2 c)
        vals.foldl max (vals.headD 0)

/-- Modelled from the spec: forward computation of a single layer on a tensor,
given that layer's parameters; `none` on a kind/shape mismatch.  Dropout is
the identity at inference time. -/
def forwardLayer : LayerSpec → LayerParams → Tensor → Option Tensor
  | .dense n act, .dense w b, .vec x => (denseApply n act w b x).map .vec
  | .conv2d f (k1, k2) act pad, .conv kernel b, .t3 g =>
      if b.length = f.toNat then
        some (.t3 ((convApply kernel b k1.toNat k2.toNat pad g).map
          (fun row => row.map (fun px => applyAct act px))))
      else none
  | .maxPool2d (p1, p2) pad, .free, .t3 g =>
      some (.t3 (poolApply p1.toNat p2.toNat pad g))
  | .dropout _, .free, t => some t
  | .flatten, .free, .t3 g => some (.vec g.flatten.flatten)
  | .flatten, .free, .vec x => some (.vec x)
  | _, _, _ => none

/-- Modelled from the spec: full forward pass of a ModelGraph on an input
tensor, threading each layer with its parameters in order. -/
def forward (G : ModelGraph) (x : Tensor) : Option Tensor :=
  (List.zip G.layers G.params).foldl
    (fun acc lp => acc.bind (forwardLayer lp.1 lp.2)) (some x)

/-- Modelled from the spec: declared output shape of a single layer applied to
an input shape (channels-last convention, as in the notebooks). -/
def layerOutShape (s : List Nat) : LayerSpec → Option (List Nat)
  | .dense n _ =>
      match s with
      | [] => none
      | _ => some (s.dropLast ++ [n.toNat])
  | .conv2d f (k1, k2) _ pad =>
      match s, pad with
      | [h, w, _], .same => some [h, w, f.toNat]
      | [h, w, _], .valid =>
          if k1.toNat ≤ h ∧ k2.toNat ≤ w then
            some [h - k1.toNat + 1, w - k2.toNat + 1, f.toNat]
          else none
      | _, _ => none
  | .maxPool2d (p1, p2) pad =>
      match s, pad with
      | [h, w, c], .same =>
          if 0 < p1.toNat ∧ 0 < p2.toNat then
            some [(h + p1.toNat - 1) / p1.toNat, (w + p2.toNat - 1) / p2.toNat, c]
          else none
      | [h, w, c], .valid =>
          if 0 < p1.toNat ∧ 0 < p2.toNat then
            some [h / p1.toNat, w / p2.toNat, c]
          else none
      | _, _ => none
  | .dropout _ => some s
  | .flatten => some [s.prod]

/-- Modelled from the spec: the ModelGraph's declared output shape, obtained
by pushing the input shape through every layer in order. -/
def outputShape (G : ModelGraph) : Option (List Nat) :=
  G.layers.foldl (fun acc l => acc.bind (fun s => layerOutShape s l))
    (some G.inputShape)

/-! ### ModelStore -/

/-- Serialised name of an activation function. -/
def actName : Activation → String
  | .relu => "relu"
  | .softmax => "softmax"
  | .sigmoid => "sigmoid"
  | .linear => "linear"

/-- Parse an activation name back; unknown names are rejected. -/
def parseAct : String → Option Activation
  | "relu" => some .relu
  | "softmax" => some .softmax
  | "sigmoid" => some .sigmoid
  | "linear" => some .linear
  | _ => none

/-- Serialised name of a padding mode. -/
def padName : Padding → String
  | .same => "same"
  | .valid => "valid"

/-- Parse a padding name back; unknown names are rejected. -/
def parsePad : String → Option Padding
  | "same" => some .same
  | "valid" => some .valid
  | _ => none

/-- Modelled from the spec (§6): serialised description of one layer inside
the artifact — a class name plus its integer, rational and string arguments
(mirroring a layer's get_config entry). -/
structure LayerConfig where
  className : String
  intArgs : List Int
  ratArgs : List ℚ
  strArgs : List String
deriving DecidableEq, Repr

def denseTag : String := "Dense"

def convTag : String := "Conv2D"

def poolTag : String := "MaxPooling2D"

def dropoutTag : String := "Dropout"

def flattenTag : String := "Flatten"

/-- Modelled from the spec: serialise one LayerSpec into its config entry. -/
def encodeLayer : LayerSpec → LayerConfig
  | .dense n a => ⟨denseTag, [n], [], [actName a]⟩
  | .conv2d f (k1, k2) a p => ⟨convTag, [f, k1, k2], [], [actName a, padName p]⟩
  | .maxPool2d (p1, p2) p => ⟨poolTag, [p1, p2], [], [padName p]⟩
  | .dropout r => ⟨dropoutTag, [], [r], []⟩
  | .flatten => ⟨flattenTag, [], [], []⟩

/-- Modelled from the spec: reconstruct a LayerSpec from its config entry;
an unknown class name or malformed argument list is rejected. -/
def parseLayer (c : LayerConfig) : Option LayerSpec :=
  match c.className, c.intArgs, c.ratArgs, c.strArgs with
  | "Dense", [n], [], [a] => (parseAct a).map (fun act => .dense n act)
  | "Conv2D", [f, k1, k2], [], [a, p] => do
      let act ← parseAct a
      let pd ← parsePad p
      some (.conv2d f (k1, k2) act pd)
  | "MaxPooling2D", [p1, p2], [], [p] => (parsePad p).map (fun pd => .maxPool2d (p1, p2) pd)
  | "Dropout", [], [r], [] => some (.dropout r)
  | "Flatten", [], [], [] => some .flatten
  | _, _, _, _ => none

/-- Modelled from the spec (§6): the single-file artifact — serialised layer
configs, the input shape and the learned parameter tensors. -/
structure Artifact where
  configs : List LayerConfig
  inputShape : List Nat
  weights : List LayerParams
deriving DecidableEq, Repr

/-- Modelled from the spec (§4.4): StorageError cases — an artifact whose
stored architecture cannot be reconstructed by the current ModelBuilder. -/
inductive StorageError where
  | unknownLayerType (c : LayerConfig)
  | invalidArchitecture (e : ConfigError)
deriving DecidableEq, Repr

/-- Modelled from the spec (§4.4): ModelStore.save writes architecture and
current parameter values to a single artifact. -/
def ModelStore.save (G : ModelGraph) : Artifact :=
  ⟨G.layers.map encodeLayer, G.inputShape, G.params⟩

/-- Parse every stored layer config, failing on the first unknown one. -/
def parseConfigs : List LayerConfig → Except StorageError (List LayerSpec)
  | [] => .ok []
  | c :: cs =>
      match parseLayer c with
      | none => .error (.unknownLayerType c)
      | some l => (parseConfigs cs).map (fun ls => l :: ls)

/-- Modelled from the spec (§4.4): ModelStore.load reconstructs an equivalent
ModelGraph with identical topology and restored parameter values, failing with
a StorageError if the stored architecture cannot be reconstructed by the
current ModelBuilder's validation. -/
def ModelStore.load (a : Artifact) : Except StorageError ModelGraph := do
  let ls ← parseConfigs a.configs
  match checkLayers ls with
  | .error e => .error (.invalidArchitecture e)
  | .ok _ => .ok { inputShape := a.inputShape, layers := ls, params := a.weights }

/-! ### Trainer -/

/-- Modelled from the spec (§4.2): partition a dataset into mini-batches of
the configured size (the final batch holds the remainder). -/
def toBatches {α : Type} : Nat → List α → List (List α)
  | _, [] => []
  | 0, x :: xs => [x :: xs]
  | B + 1, x :: xs => ((x :: xs).take (B + 1)) :: toBatches (B + 1) (xs.drop B)
termination_by _ xs => xs.length
decreasing_by simp; omega

/-- Modelled from the spec (§4.2): one training epoch folds the optimizer
step over the mini-batches, counting one optimizer step per batch. -/
def trainEpoch {σ ε : Type} (step : σ → List ε → σ) (B : Nat)
    (examples : List ε) (s : σ) : σ × Nat :=
  (toBatches B examples).foldl (fun acc b => (step acc.1 b, acc.2 + 1)) (s, 0)

/-- Modelled from the spec (§3): TrainConfig — loss, optimizer, metrics,
batch size, max epochs, validation split, shuffle flag, optional patience. -/
structure TrainConfig where
  loss : String
  optimizer : String
  metrics : List String
  batchSize : Nat
  epochs : Nat
  validationSplit : ℚ
  shuffle : Bool
  patience : Option Nat
deriving DecidableEq, Repr

/-- Optimizer names the backend accepts (the ones the notebooks mention). -/
def knownOptimizers : List String :=
  [ "adagrad", "adadelta", "adam", "sgd", "rmsprop" ]

/-- Loss-function names the backend accepts. -/
def knownLosses : List String :=
  [ "categorical_crossentropy", "binary_crossentropy", "mean_squared_error", "hinge" ]

/-- Metric names the backend accepts. -/
def knownMetrics : List String :=
  [ "mse", "accuracy" ]

/-- Modelled from the spec (§4.2): compile-time validation of a TrainConfig —
an unknown loss/optimizer/metric name or a zero batch size fails with a
ConfigError before any epoch runs. -/
def checkCompile (cfg : TrainConfig) : Except ConfigError Unit :=
  if cfg.optimizer ∉ knownOptimizers then .error (.unknownOptimizer cfg.optimizer)
  else if cfg.loss ∉ knownLosses then .error (.unknownLoss cfg.loss)
  else
    match cfg.metrics.find? (fun m => !(knownMetrics.contains m)) with
    | some m => .error (.unknownMetric m)
    | none =>
        if cfg.batchSize = 0 then .error (.badBatchSize cfg.batchSize) else .ok ()

/-- Modelled from the spec (§7): errors a train call can surface — a
ConfigError from compile-time validation or a DataShapeError carrying the
mismatched feature/label counts. -/
inductive TrainError where
  | config (e : ConfigError)
  | dataShape (nFeatures nLabels : Nat)
deriving DecidableEq, Repr

/-- Modelled from the spec (§3): a Dataset is a pair of parallel feature and
label arrays. -/
structure Dataset where
  features : List Tensor
  labels : List (List ℚ)
deriving DecidableEq, Repr

/-- Modelled from the spec (§4.2): Trainer.train validates the configuration
and the feature/label batch-dimension sizes eagerly, then runs the configured
number of epochs, one optimizer step per mini-batch.  The optimizer step
itself is the external backend's and is passed in as a function.  The result
pairs the (possibly updated) ModelGraph with either the per-epoch history of
optimizer-step counts or the error; on any validation error the graph is
returned unchanged. -/
def Trainer.train (G : ModelGraph) (cfg : TrainConfig) (ds : Dataset)
    (step : ModelGraph → List (Tensor × List ℚ) → ModelGraph) :
    ModelGraph × Except TrainError (List Nat) :=
  match checkCompile cfg with
  | .error e => (G, .error (.config e))
  | .ok _ =>
      if ds.features.length ≠ ds.labels.length then
        (G, .error (.dataShape ds.features.length ds.labels.length))
      else
        let examples := List.zip ds.features ds.labels
        let run := (List.range cfg.epochs).foldl
          (fun acc _ =>
            let r := trainEpoch step cfg.batchSize examples acc.1
            (r.1, acc.2 ++ [r.2]))
          (G, ([] : List Nat))
        (run.1, .ok run.2)

/-! ### Early stopping -/

/-- Modelled from the spec (§4.2): early-stopping callback state — the best
validation metric seen so far (none before the first epoch) and the count of
consecutive epochs without improvement. -/
structure ESState where
  best : Option ℚ
  wait : Nat
deriving DecidableEq, Repr

/-- Modelled from the spec: the monitored metric improves when it is strictly
below the best seen so far; the first epoch always improves. -/
def improvesB (best : Option ℚ) (m : ℚ) : Bool :=
  match best with
  | none => true
  | some b => decide (m < b)

/-- Modelled from the spec (§4.2): post-epoch early-stopping decision, as the
framework's EarlyStopping callback evaluates it — on improvement reset the
wait counter; otherwise increment it, halting when it had already reached the
configured patience. -/
def esStep (p : Nat) (s : ESState) (m : ℚ) : ESState × Bool :=
  if improvesB s.best m then ({ best := some m, wait := 0 }, false)
  else if p ≤ s.wait then ({ best := s.best, wait := s.wait + 1 }, true)
  else ({ best := s.best, wait := s.wait + 1 }, false)

/-- Modelled from the spec (§4.2): epoch loop with early stopping.  Each epoch
first runs the epoch's optimizer passes (step), then observes that epoch's
validation metric and evaluates the stopping rule; on halt the parameters at
the time of halt are returned together with the (1-based) halt epoch. -/
def esLoop {σ : Type} (p : Nat) (step : σ → σ) :
    ESState → σ → List ℚ → Nat → σ × Option Nat
  | _, s, [], _ => (s, none)
  | es, s, m :: ms, e =>
      let s2 := step s
      let r := esStep p es m
      if r.2 then (s2, some e) else esLoop p step r.1 s2 ms (e + 1)

/-- Modelled from the spec (§4.2): train against a given validation-metric
sequence (one metric per epoch) with early stopping of the given patience,
starting from fresh callback state. -/
def trainWithES {σ : Type} (p : Nat) (step : σ → σ) (s₀ : σ) (ms : List ℚ) :
    σ × Option Nat :=
  esLoop p step { best := none, wait := 0 } s₀ ms 1

/-- Running minimum of a metric sequence (none when empty): the best value the
early-stopping callback has seen after these epochs. -/
def runMin (l : List ℚ) : Option ℚ :=
  l.foldl
    (fun acc m =>
      match acc with
      | none => some m
      | some b => some (min b m)) none

/-- Modelled from the spec: whether the validation metric improved at the
(1-based) epoch i of the sequence — strictly below every earlier value. -/
def improvesAt (ms : List ℚ) (i : Nat) : Bool :=
  match ms.get? (i - 1) with
  | none => false
  | some m => improvesB (runMin (ms.take (i - 1))) m

/-! ### Evaluator -/

/-- Modelled from the spec (§4.3): index and value of the maximum entry,
keeping the lowest index on ties (the standard arg-max convention). -/
def argmaxP : List ℚ → Option (Nat × ℚ)
  | [] => none
  | v :: vs =>
      match argmaxP vs with
      | none => some (0, v)
      | some (j, m) => if m > v then some (j + 1, m) else some (0, v)

/-- Modelled from the spec (§4.3): predicted class index derived as the
arg-max over the probability vector, ties broken by lowest index. -/
def argmaxIdx (xs : List ℚ) : Nat :=
  ((argmaxP xs).map (fun q => q.1)).getD 0

/-- Modelled from the spec (§4.3): accuracy is the fraction of exact matches
between the true and predicted class-index vectors. -/
def accuracy_score (yTrue yPred : List Nat) : ℚ :=
  (((List.zip yTrue yPred).countP (fun q => q.1 == q.2) : ℚ)) / ((yTrue.length : ℚ))

/-- Number of classes spanned by the label vectors (largest index plus one). -/
def numClasses (yTrue yPred : List Nat) : Nat :=
  ((yTrue ++ yPred).foldl max 0) + 1

/-- Modelled from the spec (§4.3): confusion matrix whose rows are true
classes and columns are predicted classes, counting co-occurrences. -/
def confusion_matrix (yTrue yPred : List Nat) : List (List Nat) :=
  let n := numClasses yTrue yPred
  (List.range n).map fun i =>
    (List.range n).map fun j =>
      (List.zip yTrue yPred).countP (fun q => q.1 == i && q.2 == j)

/-- Modelled from the spec (§4.3): the predict operation maps the forward pass
over every example, threading the ModelGraph through unchanged. -/
def Evaluator.predictAll (xs : List Tensor) (G : ModelGraph) :
    List (Option Tensor) × ModelGraph :=
  xs.foldl (fun acc x => (acc.1 ++ [forward acc.2 x], acc.2)) ([], G)

/-- Modelled from the spec (§4.3): evaluate computes the loss over the whole
dataset in fixed-size batches, aggregating by simple averaging, threading the
ModelGraph through the batch loop unchanged. -/
def Evaluator.evaluate (B : Nat) (lossFn : Tensor → List ℚ → ℚ) (ds : Dataset)
    (G : ModelGraph) : ℚ × ModelGraph :=
  let ex := List.zip ds.features ds.labels
  let r := (toBatches B ex).foldl
    (fun acc b =>
      let bl := ((b.map (fun q =>
        match forward acc.2 q.1 with
        | some t => lossFn t q.2
        | none => 0)).sum) / ((b.length : ℚ))
      (acc.1 + bl, acc.2))
    ((0 : ℚ), G)
  (r.1 / (((toBatches B ex).length : ℚ)), r.2)

/-! ### Concrete graphs from the notebooks, used as witnesses -/

/-- Layer stack of the simple digits classifier in notebook 3-2. -/
def digitsClfLayers : List LayerSpec :=
  [ .dense 128 .relu, .dropout (1/4), .dense 128 .relu, .dropout (1/2),
    .dense 10 .softmax ]

/-- A two-unit softmax graph with identity weights, small enough to evaluate
concretely. -/
def tinyGraph : ModelGraph :=
  { inputShape := [2]
    layers := [ .dense 2 .softmax ]
    params := [ .dense [ [1, 0], [0, 1] ] [0, 0] ] }

/-! ## Helper lemmas -/

theorem parseAct_actName (a : Activation) : parseAct (actName a) = some a := by
  cases a <;> rfl

theorem parsePad_padName (p : Padding) : parsePad (padName p) = some p := by
  cases p <;> rfl

theorem parseLayer_encodeLayer (l : LayerSpec) : parseLayer (encodeLayer l) = some l := by
  cases l with
  | dense n a =>
      simp [encodeLayer, parseLayer, denseTag, parseAct_actName]
  | conv2d f ks a p =>
      obtain ⟨k1, k2⟩ := ks
      simp [encodeLayer, parseLayer, convTag, parseAct_actName, parsePad_padName]
  | maxPool2d ks p =>
      obtain ⟨p1, p2⟩ := ks
      simp [encodeLayer, parseLayer, poolTag, parsePad_padName]
  | dropout r => rfl
  | flatten => rfl

theorem parseConfigs_map_encode (ls : List LayerSpec) :
    parseConfigs (ls.map encodeLayer) = .ok ls := by
  induction ls with
  | nil => rfl
  | cons l ls ih =>
      simp [parseConfigs, parseLayer_encodeLayer, ih, Except.map]

/-! ## C1: ModelStore round-trip -/

/-- C1: for every ModelGraph with a valid layer sequence, loading the saved
artifact reconstructs a graph with identical topology and restored parameter
values, so its outputs on any input equal the original graph's outputs
(exact equality, hence within any floating-point tolerance). -/
theorem modelStore_load_save_roundtrip (G : ModelGraph)
    (h : checkLayers G.layers = .ok ()) :
    ∃ G2, ModelStore.load (ModelStore.save G) = .ok G2 ∧
      G2.layers = G.layers ∧ G2.inputShape = G.inputShape ∧
      G2.params = G.params ∧ ∀ x, forward G2 x = forward G x := by
  refine ⟨G, ?_, rfl, rfl, rfl, fun x => rfl⟩
  unfold ModelStore.load ModelStore.save
  rw [parseConfigs_map_encode]
  show (match checkLayers G.layers with
      | Except.error e => Except.error (StorageError.invalidArchitecture e)
      | Except.ok _ =>
          Except.ok { inputShape := G.inputShape, layers := G.layers, params := G.params }) =
    Except.ok G
  rw [h]

/-- Witness for C1 at the concrete two-unit softmax graph. -/
theorem modelStore_load_save_roundtrip_witness :
    ModelStore.load (ModelStore.save tinyGraph) = .ok tinyGraph := by
  obtain ⟨G2, h1, h2, h3, h4, _⟩ := modelStore_load_save_roundtrip tinyGraph rfl
  obtain ⟨i, l, p⟩ := G2
  dsimp only at h2 h3 h4
  subst h2
  subst h3
  subst h4
  exact h1

/-! ## C2: one epoch = ceil(N/B) optimizer steps -/

theorem toBatches_nil_iff {α : Type} (B : Nat) (xs : List α) :
    toBatches B xs = [] ↔ xs = [] := by
  constructor
  · intro h
    cases xs with
    | nil => rfl
    | cons x xs =>
        cases B with
        | zero => simp [toBatches] at h
        | succ B => simp [toBatches] at h
  · intro h
    subst h
    simp [toBatches]

theorem toBatches_count {α : Type} (B : Nat) (hB : 0 < B) (xs : List α) :
    (toBatches B xs).length = (xs.length + B - 1) / B := by
  obtain ⟨Bp, rfl⟩ : ∃ Bp, B = Bp + 1 := ⟨B - 1, by omega⟩
  have key : ∀ (n : Nat) (ys : List α), ys.length ≤ n →
      (toBatches (Bp + 1) ys).length = (ys.length + Bp) / (Bp + 1) := by
    intro n
    induction n with
    | zero =>
        intro ys hy
        have hnil : ys = [] := List.length_eq_zero.mp (by omega)
        subst hnil
        simp [toBatches, Nat.div_eq_of_lt (by omega : Bp < Bp + 1)]
    | succ n ih =>
        intro ys hy
        cases ys with
        | nil => simp [toBatches, Nat.div_eq_of_lt (by omega : Bp < Bp + 1)]
        | cons y ys =>
            simp only [List.length_cons] at hy
            rw [toBatches]
            have hrec := ih (ys.drop Bp) (by simp only [List.length_drop]; omega)
            simp only [List.length_cons, hrec, List.length_drop]
            have hsplit : ys.length + 1 + Bp = ys.length + (Bp + 1) := by omega
            rw [hsplit, Nat.add_div_right _ (by omega : 0 < Bp + 1)]
            rcases Nat.le_total Bp ys.length with hle | hle
            · have h1 : ys.length - Bp + Bp = ys.length := by omega
              rw [h1]
            · have h1 : ys.length - Bp = 0 := by omega
              rw [h1]
              rw [Nat.div_eq_of_lt (by omega : ys.length < Bp + 1),
                Nat.div_eq_of_lt (by omega : 0 + Bp < Bp + 1)]
  rw [key xs.length xs le_rfl]
  have harith : xs.length + Bp = xs.length + (Bp + 1) - 1 := by omega
  rw [harith]

theorem toBatches_flatten {α : Type} (B : Nat) (xs : List α) :
    (toBatches B xs).flatten = xs := by
  cases B with
  | zero =>
      cases xs with
      | nil => simp [toBatches]
      | cons x xs => simp [toBatches]
  | succ Bp =>
      have key : ∀ (n : Nat) (ys : List α), ys.length ≤ n →
          (toBatches (Bp + 1) ys).flatten = ys := by
        intro n
        induction n with
        | zero =>
            intro ys hy
            have hnil : ys = [] := List.length_eq_zero.mp (by omega)
            subst hnil
            simp [toBatches]
        | succ n ih =>
            intro ys hy
            cases ys with
            | nil => simp [toBatches]
            | cons y ys =>
                simp only [List.length_cons] at hy
                rw [toBatches]
                have hrec := ih (ys.drop Bp) (by simp only [List.length_drop]; omega)
                simp only [List.flatten_cons, hrec]
                have : (y :: ys).drop (Bp + 1) = ys.drop Bp := by
                  simp [List.drop_succ_cons]
                rw [← this, List.take_append_drop]
      exact key xs.length xs le_rfl

theorem toBatches_mem_size {α : Type} (B : Nat) (hB : 0 < B) (xs : List α) :
    ∀ b ∈ toBatches B xs, b.length ≤ B ∧ b ≠ [] := by
  obtain ⟨Bp, rfl⟩ : ∃ Bp, B = Bp + 1 := ⟨B - 1, by omega⟩
  have key : ∀ (n : Nat) (ys : List α), ys.length ≤ n →
      ∀ b ∈ toBatches (Bp + 1) ys, b.length ≤ Bp + 1 ∧ b ≠ [] := by
    intro n
    induction n with
    | zero =>
        intro ys hy
        have hnil : ys = [] := List.length_eq_zero.mp (by omega)
        subst hnil
        intro b hb
        simp [toBatches] at hb
    | succ n ih =>
        intro ys hy
        cases ys with
        | nil => intro b hb; simp [toBatches] at hb
        | cons y ys =>
            simp only [List.length_cons] at hy
            rw [toBatches]
            intro b hb
            rcases List.mem_cons.mp hb with h | h
            · subst h
              constructor
              · simp [List.length_take]
              · simp
            · exact ih (ys.drop Bp) (by simp only [List.length_drop]; omega) b h
  exact key xs.length xs le_rfl

theorem toBatches_dropLast_size {α : Type} (B : Nat) (hB : 0 < B) (xs : List α) :
    ∀ b ∈ (toBatches B xs).dropLast, b.length = B := by
  obtain ⟨Bp, rfl⟩ : ∃ Bp, B = Bp + 1 := ⟨B - 1, by omega⟩
  have key : ∀ (n : Nat) (ys : List α), ys.length ≤ n →
      ∀ b ∈ (toBatches (Bp + 1) ys).dropLast, b.length = Bp + 1 := by
    intro n
    induction n with
    | zero =>
        intro ys hy
        have hnil : ys = [] := List.length_eq_zero.mp (by omega)
        subst hnil
        intro b hb
        simp [toBatches] at hb
    | succ n ih =>
        intro ys hy
        cases ys with
        | nil => intro b hb; simp [toBatches] at hb
        | cons y ys =>
            simp only [List.length_cons] at hy
            rw [toBatches]
            intro b hb
            rcases hrest : toBatches (Bp + 1) (ys.drop Bp) with _ | ⟨r, rs⟩
            · rw [hrest] at hb
              simp at hb
            · rw [hrest, List.dropLast_cons₂] at hb
              rcases List.mem_cons.mp hb with h | h
              · subst h
                have hne : ys.drop Bp ≠ [] := by
                  intro hn
                  rw [hn] at hrest
                  simp [toBatches] at hrest
                have : Bp < ys.length := by
                  by_contra hc
                  exact hne (List.drop_eq_nil_of_le (by omega))
                simp [List.length_take]
                omega
              · have := ih (ys.drop Bp) (by simp [List.length_drop]; omega)
                rw [hrest] at this
                exact this b h
  exact key xs.length xs le_rfl

theorem trainEpoch_counter {σ ε : Type} (step : σ → List ε → σ)
    (l : List (List ε)) : ∀ (s : σ) (c : Nat),
    (l.foldl (fun acc b => (step acc.1 b, acc.2 + 1)) (s, c)).2 = c + l.length := by
  induction l with
  | nil => intro s c; simp
  | cons b l ih =>
      intro s c
      simp only [List.foldl_cons, List.length_cons]
      rw [ih]
      omega

/-- C2: for every training dataset and batch size B > 0, one training epoch
partitions the dataset into mini-batches — their concatenation restores the
dataset, every batch is non-empty of size at most B, and all but the last
have size exactly B — and performs exactly ceil(N/B) optimizer steps. -/
theorem trainer_epoch_steps {σ ε : Type} (step : σ → List ε → σ) (B : Nat)
    (xs : List ε) (s : σ) (hB : 0 < B) :
    (trainEpoch step B xs s).2 = (xs.length + B - 1) / B ∧
    (toBatches B xs).flatten = xs ∧
    (∀ b ∈ (toBatches B xs).dropLast, b.length = B) ∧
    (∀ b ∈ toBatches B xs, b.length ≤ B ∧ b ≠ []) := by
  refine ⟨?_, toBatches_flatten B xs, toBatches_dropLast_size B hB xs,
    toBatches_mem_size B hB xs⟩
  unfold trainEpoch
  rw [trainEpoch_counter, toBatches_count B hB xs]
  omega

/-- Witness for C2: five examples with batch size 2 take ceil(5/2) = 3
optimizer steps. -/
theorem trainer_epoch_steps_witness :
    (trainEpoch (fun (s : Nat) (_ : List Nat) => s + 1) 2 [ 0, 1, 2, 3, 4 ] 0).2 =
      (([ 0, 1, 2, 3, 4 ] : List Nat).length + 2 - 1) / 2 :=
  (trainer_epoch_steps (fun (s : Nat) (_ : List Nat) => s + 1) 2
    [ 0, 1, 2, 3, 4 ] 0 (by decide)).1

/-! ## C3: early stopping -/

theorem esLoop_nil {σ : Type} (p : Nat) (step : σ → σ) (es : ESState) (s : σ)
    (e : Nat) : esLoop p step es s [] e = (s, none) := rfl

theorem esLoop_cons {σ : Type} (p : Nat) (step : σ → σ) (es : ESState) (s : σ)
    (m : ℚ) (ms : List ℚ) (e : Nat) :
    esLoop p step es s (m :: ms) e =
      if (esStep p es m).2 then (step s, some e)
      else esLoop p step (esStep p es m).1 (step s) ms (e + 1) := rfl

theorem esStep_improve (p : Nat) (s : ESState) (m : ℚ)
    (h : improvesB s.best m = true) :
    esStep p s m = ({ best := some m, wait := 0 }, false) := by
  simp [esStep, h]

theorem esStep_wait (p : Nat) (s : ESState) (m : ℚ)
    (h : improvesB s.best m = false) (hw : s.wait < p) :
    esStep p s m = ({ best := s.best, wait := s.wait + 1 }, false) := by
  simp only [esStep, h, Bool.false_eq_true, if_false]
  rw [if_neg (by omega)]

theorem esStep_halt (p : Nat) (s : ESState) (m : ℚ)
    (h : improvesB s.best m = false) (hw : p ≤ s.wait) :
    esStep p s m = ({ best := s.best, wait := s.wait + 1 }, true) := by
  simp only [esStep, h, Bool.false_eq_true, if_false]
  rw [if_pos hw]

theorem runMin_concat (l : List ℚ) (m : ℚ) :
    runMin (l ++ [m]) =
      some (match runMin l with
        | none => m
        | some b => min b m) := by
  have h : runMin (l ++ [m]) =
      (fun acc v =>
        match acc with
        | none => some v
        | some b => some (min b v)) (runMin l) m := by
    unfold runMin
    rw [List.foldl_append]
    rfl
  rw [h]
  cases hr : runMin l
  · rfl
  · rfl

theorem runMin_concat_improve (l : List ℚ) (m : ℚ)
    (h : improvesB (runMin l) m = true) : runMin (l ++ [m]) = some m := by
  rw [runMin_concat]
  rcases hr : runMin l with _ | b
  · rfl
  · rw [hr] at h
    simp only [improvesB, decide_eq_true_eq] at h
    simp [min_eq_right (le_of_lt h)]

theorem runMin_concat_noimprove (l : List ℚ) (m : ℚ)
    (h : improvesB (runMin l) m = false) : runMin (l ++ [m]) = runMin l := by
  rw [runMin_concat]
  rcases hr : runMin l with _ | b
  · rw [hr] at h
    simp [improvesB] at h
  · rw [hr] at h
    simp only [improvesB, decide_eq_false_iff_not, not_lt] at h
    simp [min_eq_left h]

theorem improvesB_runMin_false_ne_nil (l : List ℚ) (m : ℚ)
    (h : improvesB (runMin l) m = false) : l ≠ [] := by
  intro hn
  subst hn
  simp [runMin, improvesB] at h

theorem improvesAt_append_cons (pre : List ℚ) (m : ℚ) (rest : List ℚ) :
    improvesAt (pre ++ m :: rest) (pre.length + 1) = improvesB (runMin pre) m := by
  have h1 : (pre ++ m :: rest).get? (pre.length + 1 - 1) = some m := by
    simp only [Nat.add_sub_cancel]
    rw [List.get?_append_right (le_refl _)]
    simp
  have h2 : (pre ++ m :: rest).take (pre.length + 1 - 1) = pre := by
    simp only [Nat.add_sub_cancel]
    exact List.take_left pre (m :: rest)
  simp only [improvesAt, h1, h2]

theorem improvesAt_stable (pre rest rest2 : List ℚ) (i : Nat) (h1 : 1 ≤ i)
    (h2 : i ≤ pre.length) :
    improvesAt (pre ++ rest) i = improvesAt (pre ++ rest2) i := by
  have hg : ∀ (r : List ℚ), (pre ++ r).get? (i - 1) = pre.get? (i - 1) := fun r =>
    List.get?_append (by omega)
  have ht : ∀ (r : List ℚ), (pre ++ r).take (i - 1) = pre.take (i - 1) := fun r =>
    List.take_append_of_le_length (by omega)
  simp only [improvesAt, hg, ht]

theorem esLoop_halt_spec {σ : Type} (p : Nat) (step : σ → σ) (s₀ : σ) :
    ∀ (rest pre : List ℚ) (w : Nat) (r : σ × Option Nat) (e : Nat),
      w ≤ p →
      (∀ i, pre.length - w < i → i ≤ pre.length →
        improvesAt (pre ++ rest) i = false) →
      ((pre = [] ∧ w = 0) ∨
        (w < pre.length ∧ improvesAt (pre ++ rest) (pre.length - w) = true)) →
      (∀ j, 1 ≤ j → j ≤ pre.length →
        ∃ i, j - p ≤ i ∧ i ≤ j ∧ improvesAt (pre ++ rest) i = true) →
      esLoop p step { best := runMin pre, wait := w } (step^[pre.length] s₀)
        rest (pre.length + 1) = r →
      r.2 = some e →
      r.1 = step^[e] s₀ ∧ p + 2 ≤ e ∧ e ≤ (pre ++ rest).length ∧
        improvesAt (pre ++ rest) (e - p - 1) = true ∧
        (∀ i, e - p ≤ i → i ≤ e → improvesAt (pre ++ rest) i = false) ∧
        ∀ j, 1 ≤ j → j < e →
          ∃ i, j - p ≤ i ∧ i ≤ j ∧ improvesAt (pre ++ rest) i = true := by
  intro rest
  induction rest with
  | nil =>
      intro pre w r e hw hfail himp hnw hloop hr2
      rw [esLoop_nil] at hloop
      subst hloop
      simp at hr2
  | cons m ms ih =>
      intro pre w r e hw hfail himp hnw hloop hr2
      rw [esLoop_cons] at hloop
      by_cases hb : improvesB (runMin pre) m = true
      · -- the metric improved this epoch: reset the wait counter and recurse
        rw [esStep_improve p _ m hb] at hloop
        simp only [Bool.false_eq_true, if_false] at hloop
        have hfail2 : ∀ i, (pre ++ [m]).length - 0 < i → i ≤ (pre ++ [m]).length →
            improvesAt ((pre ++ [m]) ++ ms) i = false := by
          intro i hi1 hi2
          omega
        have himp2 : ((pre ++ [m]) = [] ∧ 0 = 0) ∨
            (0 < (pre ++ [m]).length ∧
              improvesAt ((pre ++ [m]) ++ ms) ((pre ++ [m]).length - 0) = true) := by
          right
          refine ⟨by simp, ?_⟩
          simp only [List.append_assoc, List.singleton_append, List.length_append,
            List.length_cons, List.length_nil, Nat.sub_zero]
          rw [improvesAt_append_cons]
          exact hb
        have hnw2 : ∀ j, 1 ≤ j → j ≤ (pre ++ [m]).length →
            ∃ i, j - p ≤ i ∧ i ≤ j ∧ improvesAt ((pre ++ [m]) ++ ms) i = true := by
          intro j hj1 hj2
          simp only [List.append_assoc, List.singleton_append]
          simp only [List.length_append, List.length_cons, List.length_nil] at hj2
          rcases Nat.lt_or_ge j (pre.length + 1) with hc | hc
          · exact hnw j hj1 (by omega)
          · have hje : j = pre.length + 1 := by omega
            subst hje
            refine ⟨pre.length + 1, by omega, le_refl _, ?_⟩
            rw [improvesAt_append_cons]
            exact hb
        have hloop2 : esLoop p step { best := runMin (pre ++ [m]), wait := 0 }
            (step^[(pre ++ [m]).length] s₀) ms ((pre ++ [m]).length + 1) = r := by
          rw [runMin_concat_improve pre m hb]
          simp only [List.length_append, List.length_cons, List.length_nil,
            Function.iterate_succ_apply']
          exact hloop
        have hres := ih (pre ++ [m]) 0 r e (by omega) hfail2 himp2 hnw2 hloop2 hr2
        simpa only [List.append_assoc, List.singleton_append] using hres
      · rw [Bool.not_eq_true] at hb
        have hb2 : improvesB (runMin pre) m = false := hb
        have hpre : pre ≠ [] := improvesB_runMin_false_ne_nil pre m hb2
        have himp3 : w < pre.length ∧
            improvesAt (pre ++ m :: ms) (pre.length - w) = true := by
          rcases himp with ⟨h1, _⟩ | h
          · exact absurd h1 hpre
          · exact h
        by_cases hwait : w < p
        · -- no improvement yet but patience not exhausted: recurse
          rw [esStep_wait p _ m hb2 hwait] at hloop
          simp only [Bool.false_eq_true, if_false] at hloop
          have hfail2 : ∀ i, (pre ++ [m]).length - (w + 1) < i →
              i ≤ (pre ++ [m]).length →
              improvesAt ((pre ++ [m]) ++ ms) i = false := by
            intro i hi1 hi2
            simp only [List.append_assoc, List.singleton_append]
            simp only [List.length_append, List.length_cons, List.length_nil] at hi1 hi2
            rcases Nat.lt_or_ge i (pre.length + 1) with hc | hc
            · exact hfail i (by omega) (by omega)
            · have hie : i = pre.length + 1 := by omega
              subst hie
              rw [improvesAt_append_cons]
              exact hb2
          have himp2 : ((pre ++ [m]) = [] ∧ w + 1 = 0) ∨
              (w + 1 < (pre ++ [m]).length ∧
                improvesAt ((pre ++ [m]) ++ ms) ((pre ++ [m]).length - (w + 1)) = true) := by
            right
            constructor
            · simp only [List.length_append, List.length_cons, List.length_nil]
              omega
            · simp only [List.append_assoc, List.singleton_append, List.length_append,
                List.length_cons, List.length_nil]
              have harith : pre.length + 1 - (w + 1) = pre.length - w := by omega
              rw [harith]
              exact himp3.2
          have hnw2 : ∀ j, 1 ≤ j → j ≤ (pre ++ [m]).length →
              ∃ i, j - p ≤ i ∧ i ≤ j ∧ improvesAt ((pre ++ [m]) ++ ms) i = true := by
            have hwlt : w < pre.length := himp3.1
            intro j hj1 hj2
            simp only [List.append_assoc, List.singleton_append]
            simp only [List.length_append, List.length_cons, List.length_nil] at hj2
            rcases Nat.lt_or_ge j (pre.length + 1) with hc | hc
            · exact hnw j hj1 (by omega)
            · have hje : j = pre.length + 1 := by omega
              subst hje
              exact ⟨pre.length - w, by omega, by omega, himp3.2⟩
          have hloop2 : esLoop p step { best := runMin (pre ++ [m]), wait := w + 1 }
              (step^[(pre ++ [m]).length] s₀) ms ((pre ++ [m]).length + 1) = r := by
            rw [runMin_concat_noimprove pre m hb2]
            simp only [List.length_append, List.length_cons, List.length_nil,
              Function.iterate_succ_apply']
            exact hloop
          have hres := ih (pre ++ [m]) (w + 1) r e (by omega) hfail2 himp2 hnw2
            hloop2 hr2
          simpa only [List.append_assoc, List.singleton_append] using hres
        · -- patience exhausted on a non-improving epoch: halt here
          have hwp : w = p := by omega
          rw [esStep_halt p _ m hb2 (by simp; omega)] at hloop
          simp only [if_true] at hloop
          subst hloop
          simp only at hr2
          have he : e = pre.length + 1 := by
            injection hr2 with h
            omega
          subst he
          refine ⟨?_, by omega, by simp, ?_, ?_, ?_⟩
          · rw [Function.iterate_succ_apply']
          · have harith : pre.length + 1 - p - 1 = pre.length - w := by omega
            rw [harith]
            exact himp3.2
          · intro i hi1 hi2
            rcases Nat.lt_or_ge i (pre.length + 1) with hc | hc
            · exact hfail i (by omega) (by omega)
            · have hie : i = pre.length + 1 := by omega
              subst hie
              rw [improvesAt_append_cons]
              exact hb2
          · intro j hj1 hj2
            exact hnw j hj1 (by omega)

theorem esLoop_none_spec {σ : Type} (p : Nat) (step : σ → σ) (s₀ : σ) :
    ∀ (rest pre : List ℚ) (w : Nat) (r : σ × Option Nat),
      w ≤ p →
      (∀ i, pre.length - w < i → i ≤ pre.length →
        improvesAt (pre ++ rest) i = false) →
      ((pre = [] ∧ w = 0) ∨
        (w < pre.length ∧ improvesAt (pre ++ rest) (pre.length - w) = true)) →
      esLoop p step { best := runMin pre, wait := w } (step^[pre.length] s₀)
        rest (pre.length + 1) = r →
      r.2 = none →
      ∀ j, pre.length + 1 ≤ j → j ≤ (pre ++ rest).length →
        ∃ i, j - p ≤ i ∧ i ≤ j ∧ improvesAt (pre ++ rest) i = true := by
  intro rest
  induction rest with
  | nil =>
      intro pre w r hw hfail himp hloop hr2
      intro j hj1 hj2
      simp only [List.append_nil] at hj2
      omega
  | cons m ms ih =>
      intro pre w r hw hfail himp hloop hr2
      rw [esLoop_cons] at hloop
      by_cases hb : improvesB (runMin pre) m = true
      · -- improvement at this epoch: it witnesses its own window, then recurse
        rw [esStep_improve p _ m hb] at hloop
        simp only [Bool.false_eq_true, if_false] at hloop
        have hfail2 : ∀ i, (pre ++ [m]).length - 0 < i → i ≤ (pre ++ [m]).length →
            improvesAt ((pre ++ [m]) ++ ms) i = false := by
          intro i hi1 hi2
          omega
        have himp2 : ((pre ++ [m]) = [] ∧ 0 = 0) ∨
            (0 < (pre ++ [m]).length ∧
              improvesAt ((pre ++ [m]) ++ ms) ((pre ++ [m]).length - 0) = true) := by
          right
          refine ⟨by simp, ?_⟩
          simp only [List.append_assoc, List.singleton_append, List.length_append,
            List.length_cons, List.length_nil, Nat.sub_zero]
          rw [improvesAt_append_cons]
          exact hb
        have hloop2 : esLoop p step { best := runMin (pre ++ [m]), wait := 0 }
            (step^[(pre ++ [m]).length] s₀) ms ((pre ++ [m]).length + 1) = r := by
          rw [runMin_concat_improve pre m hb]
          simp only [List.length_append, List.length_cons, List.length_nil,
            Function.iterate_succ_apply']
          exact hloop
        have hres := ih (pre ++ [m]) 0 r (by omega) hfail2 himp2 hloop2 hr2
        intro j hj1 hj2
        simp only [List.length_append, List.length_cons] at hj2
        rcases Nat.lt_or_ge j (pre.length + 2) with hc | hc
        · have hje : j = pre.length + 1 := by omega
          subst hje
          refine ⟨pre.length + 1, by omega, le_refl _, ?_⟩
          rw [improvesAt_append_cons]
          exact hb
        · have hj := hres j
            (by simp only [List.length_append, List.length_cons, List.length_nil]; omega)
            (by simp only [List.length_append, List.length_cons, List.length_nil]; omega)
          simpa only [List.append_assoc, List.singleton_append] using hj
      · rw [Bool.not_eq_true] at hb
        have hb2 : improvesB (runMin pre) m = false := hb
        have hpre : pre ≠ [] := improvesB_runMin_false_ne_nil pre m hb2
        have himp3 : w < pre.length ∧
            improvesAt (pre ++ m :: ms) (pre.length - w) = true := by
          rcases himp with ⟨h1, _⟩ | h
          · exact absurd h1 hpre
          · exact h
        by_cases hwait : w < p
        · -- patience not exhausted: the last improvement still covers this
          -- epoch's window, then recurse
          rw [esStep_wait p _ m hb2 hwait] at hloop
          simp only [Bool.false_eq_true, if_false] at hloop
          have hfail2 : ∀ i, (pre ++ [m]).length - (w + 1) < i →
              i ≤ (pre ++ [m]).length →
              improvesAt ((pre ++ [m]) ++ ms) i = false := by
            intro i hi1 hi2
            simp only [List.append_assoc, List.singleton_append]
            simp only [List.length_append, List.length_cons, List.length_nil] at hi1 hi2
            rcases Nat.lt_or_ge i (pre.length + 1) with hc | hc
            · exact hfail i (by omega) (by omega)
            · have hie : i = pre.length + 1 := by omega
              subst hie
              rw [improvesAt_append_cons]
              exact hb2
          have himp2 : ((pre ++ [m]) = [] ∧ w + 1 = 0) ∨
              (w + 1 < (pre ++ [m]).length ∧
                improvesAt ((pre ++ [m]) ++ ms) ((pre ++ [m]).length - (w + 1)) = true) := by
            right
            constructor
            · simp only [List.length_append, List.length_cons, List.length_nil]
              omega
            · simp only [List.append_assoc, List.singleton_append, List.length_append,
                List.length_cons, List.length_nil]
              have harith : pre.length + 1 - (w + 1) = pre.length - w := by omega
              rw [harith]
              exact himp3.2
          have hloop2 : esLoop p step { best := runMin (pre ++ [m]), wait := w + 1 }
              (step^[(pre ++ [m]).length] s₀) ms ((pre ++ [m]).length + 1) = r := by
            rw [runMin_concat_noimprove pre m hb2]
            simp only [List.length_append, List.length_cons, List.length_nil,
              Function.iterate_succ_apply']
            exact hloop
          have hres := ih (pre ++ [m]) (w + 1) r (by omega) hfail2 himp2 hloop2 hr2
          have hwlt : w < pre.length := himp3.1
          intro j hj1 hj2
          simp only [List.length_append, List.length_cons] at hj2
          rcases Nat.lt_or_ge j (pre.length + 2) with hc | hc
          · have hje : j = pre.length + 1 := by omega
            subst hje
            exact ⟨pre.length - w, by omega, by omega, himp3.2⟩
          · have hj := hres j
              (by simp only [List.length_append, List.length_cons, List.length_nil]; omega)
              (by simp only [List.length_append, List.length_cons, List.length_nil]; omega)
            simpa only [List.append_assoc, List.singleton_append] using hj
        · -- patience exhausted on a non-improving epoch: the loop halts,
          -- contradicting the assumption that it ran out of epochs
          rw [esStep_halt p _ m hb2 (by simp; omega)] at hloop
          simp only [if_true] at hloop
          subst hloop
          simp at hr2

/-- C3 counterexample: with patience 1 and metric sequence [5, 5], epoch 2
fails to improve — one (= patience) consecutive non-improving epoch — yet
training does not halt, contradicting the claim that training halts once the
metric fails to improve for patience consecutive epochs. -/
theorem earlyStopping_counterexample :
    improvesAt [ (5 : ℚ), 5 ] 2 = false ∧
    (trainWithES 1 (fun (n : Nat) => n + 1) 0 [ (5 : ℚ), 5 ]).2 = none := by
  constructor
  · rfl
  · rfl

/-- C3 (amended): for every validation-metric sequence, early stopping with
patience p halts exactly when the monitored metric fails to improve for p+1
consecutive epochs.  Soundness: if training halts at epoch e, the last
improvement was at epoch e-p-1, every epoch from e-p through e was
non-improving, no earlier epoch ended p+1 consecutive non-improving epochs,
and the weights retained are those at the time of halt (the parameters after
all e epochs, no rollback).  Completeness: if the metric fails to improve on
the p+1 consecutive epochs e-p..e of the sequence, training halts at some
epoch e2 ≤ e, retaining the weights at the time of halt. -/
theorem earlyStopping_halt {σ : Type} (p : Nat) (step : σ → σ) (s₀ : σ)
    (ms : List ℚ) :
    (∀ e, (trainWithES p step s₀ ms).2 = some e →
      (trainWithES p step s₀ ms).1 = step^[e] s₀ ∧
      p + 2 ≤ e ∧ e ≤ ms.length ∧
      improvesAt ms (e - p - 1) = true ∧
      (∀ i, e - p ≤ i → i ≤ e → improvesAt ms i = false) ∧
      ∀ j, 1 ≤ j → j < e →
        ∃ i, j - p ≤ i ∧ i ≤ j ∧ improvesAt ms i = true) ∧
    (∀ e, p + 1 ≤ e → e ≤ ms.length →
      (∀ i, e - p ≤ i → i ≤ e → improvesAt ms i = false) →
      ∃ e2, (trainWithES p step s₀ ms).2 = some e2 ∧ e2 ≤ e ∧
        (trainWithES p step s₀ ms).1 = step^[e2] s₀) := by
  constructor
  · intro e h
    have hres := esLoop_halt_spec p step s₀ ms [] 0 (trainWithES p step s₀ ms) e
      (Nat.zero_le p)
      (by
        intro i h1 h2
        simp only [List.length_nil] at h1 h2
        omega)
      (Or.inl ⟨rfl, rfl⟩)
      (by
        intro j hj1 hj2
        simp only [List.length_nil] at hj2
        omega)
      rfl
      h
    simpa using hres
  · intro e he1 he2 hwin
    rcases hr : (trainWithES p step s₀ ms).2 with _ | e2
    · -- no halt would mean every window of p+1 epochs contains an improvement
      have hnone := esLoop_none_spec p step s₀ ms [] 0 (trainWithES p step s₀ ms)
        (Nat.zero_le p)
        (by
          intro i h1 h2
          simp only [List.length_nil] at h1 h2
          omega)
        (Or.inl ⟨rfl, rfl⟩)
        rfl
        hr
      obtain ⟨i, hi1, hi2, hi3⟩ := hnone e
        (by simp only [List.length_nil]; omega)
        (by simpa using he2)
      rw [List.nil_append] at hi3
      rw [hwin i hi1 hi2] at hi3
      exact absurd hi3 (by decide)
    · have hres := esLoop_halt_spec p step s₀ ms [] 0 (trainWithES p step s₀ ms) e2
        (Nat.zero_le p)
        (by
          intro i h1 h2
          simp only [List.length_nil] at h1 h2
          omega)
        (Or.inl ⟨rfl, rfl⟩)
        (by
          intro j hj1 hj2
          simp only [List.length_nil] at hj2
          omega)
        rfl
        hr
      simp only [List.nil_append] at hres
      refine ⟨e2, rfl, ?_, hres.1⟩
      by_contra hgt
      push_neg at hgt
      obtain ⟨i, hi1, hi2, hi3⟩ := hres.2.2.2.2.2 e (by omega) hgt
      rw [hwin i hi1 hi2] at hi3
      exact absurd hi3 (by decide)

/-- Witness for C3 at patience 1 and metric sequence [5, 6, 6, 6]: epochs 2
and 3 fail to improve — patience+1 = 2 consecutive epochs — so training
halts, exactly at epoch 3 = 1 + patience + 1 after the epoch-1 improvement,
retaining the parameters after 3 epochs. -/
theorem earlyStopping_halt_witness :
    (trainWithES 1 (fun (n : Nat) => n + 1) 0 [ (5 : ℚ), 6, 6, 6 ]).1 =
      (fun (n : Nat) => n + 1)^[3] 0 ∧
    improvesAt [ (5 : ℚ), 6, 6, 6 ] (3 - 1 - 1) = true ∧
    (trainWithES 1 (fun (n : Nat) => n + 1) 0 [ (5 : ℚ), 6, 6, 6 ]).2 = some 3 := by
  have h := (earlyStopping_halt 1 (fun (n : Nat) => n + 1) 0
    [ (5 : ℚ), 6, 6, 6 ]).1 3 rfl
  have hc := (earlyStopping_halt 1 (fun (n : Nat) => n + 1) 0
    [ (5 : ℚ), 6, 6, 6 ]).2 3 (by omega) (by decide)
    (by
      intro i h1 h2
      have hi : i = 2 ∨ i = 3 := by omega
      rcases hi with h3 | h3 <;> subst h3 <;> rfl)
  obtain ⟨e2, he2, _, _⟩ := hc
  have h3 : some e2 = some (3 : Nat) := he2.symm.trans rfl
  injection h3 with h4
  rw [h4] at he2
  exact ⟨h.1, h.2.2.2.1, he2⟩

/-! ## C5: arg-max with lowest-index tie-break -/

theorem argmaxP_ne_none (v : ℚ) (vs : List ℚ) : argmaxP (v :: vs) ≠ none := by
  intro h
  unfold argmaxP at h
  rcases hv : argmaxP vs with _ | ⟨j, m⟩ <;> rw [hv] at h
  · simp at h
  · dsimp only at h
    split at h <;> simp at h

theorem argmaxP_spec (xs : List ℚ) :
    ∀ j m, argmaxP xs = some (j, m) →
      j < xs.length ∧ xs.getD j 0 = m ∧
      (∀ k, k < xs.length → xs.getD k 0 ≤ m) ∧
      (∀ k, k < j → xs.getD k 0 < m) := by
  induction xs with
  | nil =>
      intro j m h
      simp [argmaxP] at h
  | cons v vs ih =>
      intro j m h
      unfold argmaxP at h
      rcases hv : argmaxP vs with _ | ⟨j2, m2⟩
      · rw [hv] at h
        simp only [Option.some.injEq, Prod.mk.injEq] at h
        obtain ⟨hj, hm⟩ := h
        subst hj
        subst hm
        have hnil : vs = [] := by
          cases vs with
          | nil => rfl
          | cons w ws => exact absurd hv (argmaxP_ne_none w ws)
        subst hnil
        refine ⟨by simp, by simp, ?_, ?_⟩
        · intro k hk
          simp only [List.length_cons, List.length_nil] at hk
          have hk0 : k = 0 := by omega
          subst hk0
          simp
        · intro k hk
          omega
      · rw [hv] at h
        dsimp only at h
        have hspec := ih j2 m2 hv
        by_cases hcmp : m2 > v
        · rw [if_pos hcmp] at h
          simp only [Option.some.injEq, Prod.mk.injEq] at h
          obtain ⟨hj, hm⟩ := h
          subst hj
          subst hm
          refine ⟨by simp; omega,
            by simp only [List.getD_cons_succ]; exact hspec.2.1, ?_, ?_⟩
          · intro k hk
            cases k with
            | zero => simpa using le_of_lt hcmp
            | succ k =>
                simp only [List.getD_cons_succ]
                exact hspec.2.2.1 k (by simpa using hk)
          · intro k hk
            cases k with
            | zero => simpa using hcmp
            | succ k =>
                simp only [List.getD_cons_succ]
                exact hspec.2.2.2 k (by omega)
        · rw [if_neg hcmp] at h
          simp only [Option.some.injEq, Prod.mk.injEq] at h
          obtain ⟨hj, hm⟩ := h
          subst hj
          subst hm
          have hle : m2 ≤ v := le_of_not_lt hcmp
          refine ⟨by simp, by simp, ?_, ?_⟩
          · intro k hk
            cases k with
            | zero => simp
            | succ k =>
                simp only [List.getD_cons_zero, List.getD_cons_succ]
                exact le_trans (hspec.2.2.1 k (by simpa using hk)) hle
          · intro k hk
            omega

/-- C5: the Evaluator derives the predicted class index as the arg-max of
the probability vector with ties broken by the lowest index — the entry at
argmaxIdx is a maximum and every earlier entry is strictly smaller — and in
particular the vector [0.5, 0.5, 0.0] yields predicted class 0. -/
theorem argmax_lowest_index (xs : List ℚ) (h : xs ≠ []) :
    argmaxIdx xs < xs.length ∧
    (∀ k, k < xs.length → xs.getD k 0 ≤ xs.getD (argmaxIdx xs) 0) ∧
    (∀ k, k < argmaxIdx xs → xs.getD k 0 < xs.getD (argmaxIdx xs) 0) ∧
    argmaxIdx [ (1 : ℚ)/2, 1/2, 0 ] = 0 := by
  rcases hx : argmaxP xs with _ | ⟨j, m⟩
  · cases xs with
    | nil => exact absurd rfl h
    | cons v vs => exact absurd hx (argmaxP_ne_none v vs)
  · have hspec := argmaxP_spec xs j m hx
    have hidx : argmaxIdx xs = j := by simp [argmaxIdx, hx]
    rw [hidx]
    refine ⟨hspec.1, ?_, ?_, ?_⟩
    · intro k hk
      rw [hspec.2.1]
      exact hspec.2.2.1 k hk
    · intro k hk
      rw [hspec.2.1]
      exact hspec.2.2.2 k hk
    · norm_num [argmaxIdx, argmaxP]

/-- Witness for C5 at the tie vector [0.5, 0.5, 0.0]. -/
theorem argmax_lowest_index_witness :
    argmaxIdx [ (1 : ℚ)/2, 1/2, 0 ] < ([ (1 : ℚ)/2, 1/2, 0 ] : List ℚ).length ∧
    argmaxIdx [ (1 : ℚ)/2, 1/2, 0 ] = 0 := by
  have h := argmax_lowest_index [ (1 : ℚ)/2, 1/2, 0 ] (by simp)
  exact ⟨h.1, h.2.2.2⟩

/-! ## C4: confusion matrix and accuracy -/

theorem foldl_max_init (l : List Nat) : ∀ acc : Nat, acc ≤ l.foldl max acc := by
  induction l with
  | nil => intro acc; exact le_refl acc
  | cons x l ih =>
      intro acc
      exact le_trans (le_max_left acc x) (ih (max acc x))

theorem foldl_max_mem (l : List Nat) : ∀ (acc a : Nat), a ∈ l → a ≤ l.foldl max acc := by
  induction l with
  | nil => intro acc a ha; simp at ha
  | cons x l ih =>
      intro acc a ha
      rcases List.mem_cons.mp ha with h | h
      · subst h
        exact le_trans (le_max_right acc a) (foldl_max_init l (max acc a))
      · exact ih (max acc x) a h

theorem mem_lt_numClasses (yt yp : List Nat) (a : Nat) (ha : a ∈ yt ++ yp) :
    a < numClasses yt yp := by
  unfold numClasses
  have := foldl_max_mem (yt ++ yp) 0 a ha
  omega

theorem range_map_getD {α : Type} (n i : Nat) (f : Nat → α) (d : α) (h : i < n) :
    ((List.range n).map f).getD i d = f i := by
  rw [List.getD_eq_getElem?_getD, List.getElem?_map, List.getElem?_range h]
  rfl

theorem sum_indicator_pair (a b n : Nat) (hbound : a = b → a < n) :
    ∑ i ∈ Finset.range n, (if (a == i && b == i) = true then (1 : Nat) else 0) =
      if (a == b) = true then 1 else 0 := by
  by_cases hab : a = b
  · subst hab
    have hn : a < n := hbound rfl
    have hcongr : ∀ i ∈ Finset.range n,
        (if (a == i && a == i) = true then (1 : Nat) else 0) =
          if a = i then 1 else 0 := by
      intro i _
      simp [Bool.and_self, beq_iff_eq]
    rw [Finset.sum_congr rfl hcongr]
    have hswap : ∀ i ∈ Finset.range n,
        (if a = i then (1 : Nat) else 0) = if i = a then 1 else 0 := by
      intro i _
      by_cases hia : i = a
      · simp [hia]
      · rw [if_neg hia, if_neg (fun hc => hia hc.symm)]
    rw [Finset.sum_congr rfl hswap, Finset.sum_ite_eq' (Finset.range n) a
      (fun _ => (1 : Nat))]
    simp [Finset.mem_range.mpr hn, beq_iff_eq]
  · rw [if_neg (by simp [beq_iff_eq, hab])]
    refine Finset.sum_eq_zero fun i _ => ?_
    rw [if_neg]
    simp only [Bool.and_eq_true, beq_iff_eq]
    rintro ⟨h1, h2⟩
    exact hab (h1.trans h2.symm)

theorem countP_diag_sum (l : List (Nat × Nat)) (n : Nat)
    (hb : ∀ q ∈ l, q.1 = q.2 → q.1 < n) :
    ∑ i ∈ Finset.range n, l.countP (fun q => q.1 == i && q.2 == i) =
      l.countP (fun q => q.1 == q.2) := by
  induction l with
  | nil => simp
  | cons q l ih =>
      have hbl : ∀ r ∈ l, r.1 = r.2 → r.1 < n := fun r hr => hb r (List.mem_cons_of_mem q hr)
      simp only [List.countP_cons]
      rw [Finset.sum_add_distrib, ih hbl,
        sum_indicator_pair q.1 q.2 n (hb q (List.mem_cons_self q l))]

/-- C4: the confusion matrix counts co-occurrences with rows indexed by true
class and columns by predicted class — entry (i, j) is the number of examples
with true label i and predicted label j, the diagonal total equals the number
of exact matches, accuracy is that number of exact matches divided by N — and
for true labels [0,1,1,0] and predicted [0,1,0,0] the matrix is [[2,0],[1,1]]
with accuracy 0.75. -/
theorem confusion_matrix_spec (yt yp : List Nat) (h : yt.length = yp.length) :
    (∀ i j, i < numClasses yt yp → j < numClasses yt yp →
      ((confusion_matrix yt yp).getD i []).getD j 0 =
        (List.zip yt yp).countP (fun q => q.1 == i && q.2 == j)) ∧
    (∑ i ∈ Finset.range (numClasses yt yp),
        ((confusion_matrix yt yp).getD i []).getD i 0 =
      (List.zip yt yp).countP (fun q => q.1 == q.2)) ∧
    accuracy_score yt yp =
      (((List.zip yt yp).countP (fun q => q.1 == q.2) : ℚ)) / ((yt.length : ℚ)) ∧
    confusion_matrix [ 0, 1, 1, 0 ] [ 0, 1, 0, 0 ] = [ [ 2, 0 ], [ 1, 1 ] ] ∧
    accuracy_score [ 0, 1, 1, 0 ] [ 0, 1, 0, 0 ] = 3 / 4 := by
  have hentry : ∀ i j, i < numClasses yt yp → j < numClasses yt yp →
      ((confusion_matrix yt yp).getD i []).getD j 0 =
        (List.zip yt yp).countP (fun q => q.1 == i && q.2 == j) := by
    intro i j hi hj
    unfold confusion_matrix
    rw [range_map_getD _ _ _ _ hi, range_map_getD _ _ _ _ hj]
  refine ⟨hentry, ?_, rfl, by decide, ?_⟩
  · have hcongr : ∀ i ∈ Finset.range (numClasses yt yp),
        ((confusion_matrix yt yp).getD i []).getD i 0 =
          (List.zip yt yp).countP (fun q => q.1 == i && q.2 == i) := fun i hi =>
      hentry i i (Finset.mem_range.mp hi) (Finset.mem_range.mp hi)
    rw [Finset.sum_congr rfl hcongr]
    refine countP_diag_sum (List.zip yt yp) (numClasses yt yp) ?_
    intro q hq _
    exact mem_lt_numClasses yt yp q.1
      (List.mem_append_left yp (List.of_mem_zip hq).1)
  · show (((List.zip [ 0, 1, 1, 0 ] [ 0, 1, 0, 0 ]).countP
        (fun q => q.1 == q.2) : ℚ)) / (([ 0, 1, 1, 0 ] : List Nat).length : ℚ) = 3 / 4
    norm_num

/-- Witness for C4 at true labels [0,1,1,0] and predictions [0,1,0,0]. -/
theorem confusion_matrix_spec_witness :
    confusion_matrix [ 0, 1, 1, 0 ] [ 0, 1, 0, 0 ] = [ [ 2, 0 ], [ 1, 1 ] ] ∧
    accuracy_score [ 0, 1, 1, 0 ] [ 0, 1, 0, 0 ] = 3 / 4 := by
  have h := confusion_matrix_spec [ 0, 1, 1, 0 ] [ 0, 1, 0, 0 ] rfl
  exact ⟨h.2.2.2.1, h.2.2.2.2⟩

/-! ## C6/C7: eager validation with ConfigError / DataShapeError -/

theorem foldr_check_error (ls : List LayerSpec) (l : LayerSpec) (e : ConfigError)
    (hmem : l ∈ ls) (he : checkLayer l = .error e) :
    ∃ e2, ls.foldr (fun l2 acc => (checkLayer l2).bind (fun _ => acc))
      (Except.ok ()) = .error e2 := by
  induction ls with
  | nil => simp at hmem
  | cons x xs ih =>
      rw [List.foldr_cons]
      rcases hx : checkLayer x with e1 | u
      · exact ⟨e1, rfl⟩
      · rcases List.mem_cons.mp hmem with h | h
        · subst h
          rw [hx] at he
          simp at he
        · obtain ⟨e2, he2⟩ := ih h
          exact ⟨e2, he2⟩

theorem checkLayers_error_of_mem (ls : List LayerSpec) (l : LayerSpec)
    (e : ConfigError) (hmem : l ∈ ls) (he : checkLayer l = .error e) :
    ∃ e2, checkLayers ls = .error e2 := by
  cases ls with
  | nil => simp at hmem
  | cons x xs => exact foldr_check_error (x :: xs) l e hmem he

theorem buildModel_eq (ls : List LayerSpec) (sh : List Nat) :
    buildModel ls sh =
      match checkLayers ls with
      | .error e => .error e
      | .ok _ => .ok { inputShape := sh, layers := ls, params := ls.map initParams } := by
  unfold buildModel
  rcases checkLayers ls with e | u <;> rfl

theorem checkCompile_batch0 (cfg : TrainConfig) (hb : cfg.batchSize = 0) :
    ∃ e, checkCompile cfg = .error e := by
  unfold checkCompile
  split
  · exact ⟨_, rfl⟩
  · split
    · exact ⟨_, rfl⟩
    · split
      · exact ⟨_, rfl⟩
      · simp only [hb, if_pos]
        exact ⟨_, rfl⟩


theorem train_config_error (G : ModelGraph) (cfg : TrainConfig) (ds : Dataset)
    (step : ModelGraph → List (Tensor × List ℚ) → ModelGraph) (e : ConfigError)
    (hc : checkCompile cfg = .error e) :
    Trainer.train G cfg ds step = (G, .error (.config e)) := by
  unfold Trainer.train
  rw [hc]

/-- C6: every invalid configuration — empty layer sequence, Dense units ≤ 0,
Conv2D filters ≤ 0 or a non-positive kernel dimension, Dropout rate outside
[0,1), or a zero batch size — is rejected with a ConfigError at
construction/validation time, before any graph is built or any epoch executes
(the Trainer returns the ModelGraph unchanged alongside the error). -/
theorem invalid_config_rejected (sh : List Nat) (u f k1 k2 : Int)
    (a : Activation) (pd : Padding) (r : ℚ) (ls : List LayerSpec) (l : LayerSpec)
    (e : ConfigError) (G : ModelGraph) (cfg : TrainConfig) (ds : Dataset)
    (step : ModelGraph → List (Tensor × List ℚ) → ModelGraph) :
    (buildModel [] sh = .error .emptyLayerSequence) ∧
    (u ≤ 0 → checkLayer (.dense u a) = .error (.badDenseUnits u)) ∧
    (f ≤ 0 → checkLayer (.conv2d f (k1, k2) a pd) = .error (.badConvFilters f)) ∧
    (0 < f → k1 ≤ 0 ∨ k2 ≤ 0 →
      checkLayer (.conv2d f (k1, k2) a pd) = .error (.badKernelSize (k1, k2))) ∧
    (¬ (0 ≤ r ∧ r < 1) → checkLayer (.dropout r) = .error (.badDropoutRate r)) ∧
    (l ∈ ls → checkLayer l = .error e → ∃ e2, buildModel ls sh = .error e2) ∧
    (cfg.optimizer ∈ knownOptimizers → cfg.loss ∈ knownLosses →
      (∀ m ∈ cfg.metrics, knownMetrics.contains m) → cfg.batchSize = 0 →
      Trainer.train G cfg ds step = (G, .error (.config (.badBatchSize 0)))) := by
  refine ⟨rfl, ?_, ?_, ?_, ?_, ?_, ?_⟩
  · intro hu
    simp only [checkLayer]
    rw [if_pos hu]
  · intro hf
    simp only [checkLayer]
    rw [if_pos hf]
  · intro hf hk
    simp only [checkLayer]
    rw [if_neg (by omega), if_pos hk]
  · intro hr
    simp only [checkLayer]
    rw [if_neg hr]
  · intro hmem he
    obtain ⟨e2, he2⟩ := checkLayers_error_of_mem ls l e hmem he
    refine ⟨e2, ?_⟩
    rw [buildModel_eq, he2]
  · intro hopt hloss hmet hb
    refine train_config_error G cfg ds step _ ?_
    unfold checkCompile
    rw [if_neg (not_not_intro hopt), if_neg (not_not_intro hloss)]
    have hfind : cfg.metrics.find? (fun m => !(knownMetrics.contains m)) = none := by
      rw [List.find?_eq_none]
      intro m hm
      simpa using hmet m hm
    rw [hfind]
    rw [if_pos hb, hb]

/-- Witness for C6 at concrete invalid configurations: Dense(0), Conv2D with
filters 0, Dropout(-1), and a TrainConfig with batch size 0 that fails before
any epoch with the graph unchanged. -/
theorem invalid_config_rejected_witness :
    checkLayer (.dense 0 .relu) = .error (.badDenseUnits 0) ∧
    checkLayer (.conv2d 0 (3, 3) .relu .same) = .error (.badConvFilters 0) ∧
    checkLayer (.dropout (-1)) = .error (.badDropoutRate (-1)) ∧
    Trainer.train tinyGraph
      { loss := "categorical_crossentropy", optimizer := "adagrad",
        metrics := [ "accuracy" ], batchSize := 0, epochs := 1,
        validationSplit := 0, shuffle := true, patience := none }
      { features := [], labels := [] } (fun g _ => g) =
      (tinyGraph, .error (.config (.badBatchSize 0))) := by
  have h := invalid_config_rejected [ 784 ] 0 0 3 3 .relu .same (-1)
    [ LayerSpec.dense 0 .relu ] (.dense 0 .relu) (.badDenseUnits 0) tinyGraph
    { loss := "categorical_crossentropy", optimizer := "adagrad",
      metrics := [ "accuracy" ], batchSize := 0, epochs := 1,
      validationSplit := 0, shuffle := true, patience := none }
    { features := [], labels := [] } (fun g _ => g)
  refine ⟨h.2.1 (by norm_num), h.2.2.1 (by norm_num), ?_, ?_⟩
  · exact h.2.2.2.2.1 (by norm_num)
  · exact h.2.2.2.2.2.2 (by decide) (by decide) (by decide) rfl

theorem checkCompile_metric_unknown (cfg : TrainConfig)
    (hm : ∃ m ∈ cfg.metrics, m ∉ knownMetrics) :
    ∃ e, checkCompile cfg = .error e := by
  unfold checkCompile
  split
  · exact ⟨_, rfl⟩
  · split
    · exact ⟨_, rfl⟩
    · split
      · exact ⟨_, rfl⟩
      · rename_i hnone
        obtain ⟨m, hmem, hknown⟩ := hm
        have hsome : (cfg.metrics.find? (fun m => !(knownMetrics.contains m))).isSome :=
          List.find?_isSome.mpr ⟨m, hmem, by simpa using hknown⟩
        rw [hnone] at hsome
        simp at hsome

/-- C7: the Trainer validates eagerly and fails fast — a feature/label count
mismatch fails with a DataShapeError, an unknown optimizer, loss or metric
name fails with a ConfigError at compile time before any epoch runs, and in
every such case the ModelGraph is returned unchanged (no partial side
effects). -/
theorem trainer_eager_validation (G : ModelGraph) (cfg : TrainConfig)
    (ds : Dataset) (step : ModelGraph → List (Tensor × List ℚ) → ModelGraph) :
    (checkCompile cfg = .ok () → ds.features.length ≠ ds.labels.length →
      Trainer.train G cfg ds step =
        (G, .error (.dataShape ds.features.length ds.labels.length))) ∧
    (cfg.optimizer ∉ knownOptimizers →
      Trainer.train G cfg ds step =
        (G, .error (.config (.unknownOptimizer cfg.optimizer)))) ∧
    (cfg.optimizer ∈ knownOptimizers → cfg.loss ∉ knownLosses →
      Trainer.train G cfg ds step =
        (G, .error (.config (.unknownLoss cfg.loss)))) ∧
    ((∃ m ∈ cfg.metrics, m ∉ knownMetrics) →
      ∃ e, Trainer.train G cfg ds step = (G, .error (.config e))) := by
  refine ⟨?_, ?_, ?_, ?_⟩
  · intro hok hne
    unfold Trainer.train
    rw [hok]
    rw [if_pos hne]
  · intro hno
    refine train_config_error G cfg ds step _ ?_
    unfold checkCompile
    rw [if_pos hno]
  · intro hyes hno
    refine train_config_error G cfg ds step _ ?_
    unfold checkCompile
    rw [if_neg (not_not_intro hyes), if_pos hno]
  · intro hm
    obtain ⟨e, he⟩ := checkCompile_metric_unknown cfg hm
    exact ⟨e, train_config_error G cfg ds step e he⟩

/-- Witness for C7: a two-feature/one-label dataset fails with a
DataShapeError leaving the graph unchanged, and an unknown optimizer name
fails with a ConfigError. -/
theorem trainer_eager_validation_witness :
    (Trainer.train tinyGraph
      { loss := "categorical_crossentropy", optimizer := "adagrad",
        metrics := [ "accuracy" ], batchSize := 1, epochs := 1,
        validationSplit := 0, shuffle := true, patience := none }
      { features := [ Tensor.vec [ 0, 0 ], Tensor.vec [ 1, 1 ] ],
        labels := [ [ 1, 0 ] ] } (fun g _ => g) =
      (tinyGraph, .error (.dataShape 2 1))) ∧
    (Trainer.train tinyGraph
      { loss := "categorical_crossentropy", optimizer := "sgdd",
        metrics := [ "accuracy" ], batchSize := 1, epochs := 1,
        validationSplit := 0, shuffle := true, patience := none }
      { features := [], labels := [] } (fun g _ => g) =
      (tinyGraph, .error (.config (.unknownOptimizer "sgdd")))) := by
  constructor
  · exact (trainer_eager_validation tinyGraph
      { loss := "categorical_crossentropy", optimizer := "adagrad",
        metrics := [ "accuracy" ], batchSize := 1, epochs := 1,
        validationSplit := 0, shuffle := true, patience := none }
      { features := [ Tensor.vec [ 0, 0 ], Tensor.vec [ 1, 1 ] ],
        labels := [ [ 1, 0 ] ] } (fun g _ => g)).1 rfl (by decide)
  · exact (trainer_eager_validation tinyGraph
      { loss := "categorical_crossentropy", optimizer := "sgdd",
        metrics := [ "accuracy" ], batchSize := 1, epochs := 1,
        validationSplit := 0, shuffle := true, patience := none }
      { features := [], labels := [] } (fun g _ => g)).2.1 (by decide)

/-! ## C8: evaluate/predict never mutate the ModelGraph -/

theorem foldl_snd_fixed {α β γ : Type} (f : α × γ → β → α) (l : List β) :
    ∀ acc : α × γ,
      (l.foldl (fun a b => (f a b, a.2)) acc).2 = acc.2 := by
  induction l with
  | nil => intro acc; rfl
  | cons b l ih =>
      intro acc
      rw [List.foldl_cons]
      exact ih _

/-- C8: the Evaluator's evaluate and predict operations thread the ModelGraph
through unchanged — the graph (architecture and parameter values) coming out
of either call is the graph that went in. -/
theorem evaluator_no_mutation (B : Nat) (lossFn : Tensor → List ℚ → ℚ)
    (ds : Dataset) (G : ModelGraph) (xs : List Tensor) :
    (Evaluator.evaluate B lossFn ds G).2 = G ∧
    (Evaluator.predictAll xs G).2 = G := by
  constructor
  · show (Evaluator.evaluate B lossFn ds G).2 = G
    unfold Evaluator.evaluate
    exact foldl_snd_fixed
      (fun acc b => acc.1 + ((b.map (fun q =>
        match forward acc.2 q.1 with
        | some t => lossFn t q.2
        | none => 0)).sum) / ((b.length : ℚ)))
      (toBatches B (List.zip ds.features ds.labels)) ((0 : ℚ), G)
  · unfold Evaluator.predictAll
    exact foldl_snd_fixed (fun acc x => acc.1 ++ [forward acc.2 x]) xs ([], G)

/-! ## C9: declared output shape matches the last layer -/

theorem buildModel_ok_fields (ls : List LayerSpec) (sh : List Nat)
    (G : ModelGraph) (h : buildModel ls sh = .ok G) :
    G.layers = ls ∧ G.inputShape = sh := by
  rw [buildModel_eq] at h
  rcases hc : checkLayers ls with e | u <;> rw [hc] at h
  · simp at h
  · simp only [Except.ok.injEq] at h
    rw [← h]
    exact ⟨rfl, rfl⟩

/-- C9: for every valid LayerSpec sequence, the ModelGraph produced by
ModelBuilder has a declared output shape whose last dimension is the final
layer's configured unit count (Dense) or filter count (Conv2D). -/
theorem modelBuilder_output_shape (ls : List LayerSpec) (n f : Int)
    (act : Activation) (k : Int × Int) (pd : Padding) (sh : List Nat)
    (G G2 : ModelGraph) (s s2 : List Nat) :
    (buildModel (ls ++ [ LayerSpec.dense n act ]) sh = .ok G →
      outputShape G = some s → s.getLast? = some n.toNat) ∧
    (buildModel (ls ++ [ LayerSpec.conv2d f k act pd ]) sh = .ok G2 →
      outputShape G2 = some s2 → s2.getLast? = some f.toNat) := by
  constructor
  · intro hb hs
    obtain ⟨hl, hi⟩ := buildModel_ok_fields _ _ _ hb
    unfold outputShape at hs
    rw [hl, hi, List.foldl_append, List.foldl_cons, List.foldl_nil] at hs
    rcases hacc : (ls.foldl (fun acc l => acc.bind fun s => layerOutShape s l)
        (some sh)) with _ | s0 <;> rw [hacc] at hs
    · simp at hs
    · simp only [Option.some_bind] at hs
      cases s0 with
      | nil => simp [layerOutShape] at hs
      | cons a rest =>
          simp only [layerOutShape] at hs
          rw [← Option.some_inj.mp hs]
          exact List.getLast?_concat _
  · intro hb hs
    obtain ⟨hl, hi⟩ := buildModel_ok_fields _ _ _ hb
    obtain ⟨k1, k2⟩ := k
    unfold outputShape at hs
    rw [hl, hi, List.foldl_append, List.foldl_cons, List.foldl_nil] at hs
    rcases hacc : (ls.foldl (fun acc l => acc.bind fun s => layerOutShape s l)
        (some sh)) with _ | s0 <;> rw [hacc] at hs
    · simp at hs
    · simp only [Option.some_bind] at hs
      rcases s0 with _ | ⟨a, _ | ⟨b, _ | ⟨c, _ | ⟨d, rest⟩⟩⟩⟩
      · simp [layerOutShape] at hs
      · simp [layerOutShape] at hs
      · simp [layerOutShape] at hs
      · cases pd with
        | same =>
            simp only [layerOutShape] at hs
            rw [← Option.some_inj.mp hs]
            rfl
        | valid =>
            simp only [layerOutShape] at hs
            by_cases hc : k1.toNat ≤ a ∧ k2.toNat ≤ b
            · rw [if_pos hc] at hs
              rw [← Option.some_inj.mp hs]
              rfl
            · rw [if_neg hc] at hs
              simp at hs
      · simp [layerOutShape] at hs

/-- Witness for C9 at the notebook 3-2 layer stack on input shape [784]: the
declared output shape ends in the final Dense layer's 10 units. -/
theorem modelBuilder_output_shape_witness :
    ([ (10 : Nat) ] : List Nat).getLast? = some ((10 : Int)).toNat :=
  (modelBuilder_output_shape
    [ LayerSpec.dense 128 .relu, LayerSpec.dropout (mkRat 1 4),
      LayerSpec.dense 128 .relu, LayerSpec.dropout (mkRat 1 2) ]
    10 16 .softmax (3, 3) .same [ 784 ]
    { inputShape := [ 784 ],
      layers := [ LayerSpec.dense 128 .relu, LayerSpec.dropout (mkRat 1 4),
        LayerSpec.dense 128 .relu, LayerSpec.dropout (mkRat 1 2),
        LayerSpec.dense 10 .softmax ],
      params := [ .dense [] [], .free, .dense [] [], .free, .dense [] [] ] }
    { inputShape := [ 28, 28, 1 ],
      layers := [ LayerSpec.dense 128 .relu, LayerSpec.dropout (mkRat 1 4),
        LayerSpec.dense 128 .relu, LayerSpec.dropout (mkRat 1 2),
        LayerSpec.conv2d 16 (3, 3) .softmax .same ],
      params := [ .dense [] [], .free, .dense [] [], .free, .conv [] [] ] }
    [ 10 ] [] ).1 rfl rfl

/-! ## C10: softmax outputs are probability distributions -/

theorem expQ_pos (v : ℚ) : 0 < expQ v := by
  unfold expQ
  split
  · rename_i h
    linarith
  · rename_i h
    have h1 : (0 : ℚ) < 1 - v := by
      push_neg at h
      linarith
    exact div_pos one_pos h1

theorem sum_map_expQ_pos (xs : List ℚ) (h : xs ≠ []) :
    0 < (xs.map expQ).sum := by
  refine List.sum_pos (xs.map expQ) ?_ ?_
  · intro a ha
    obtain ⟨v, _, hv⟩ := List.mem_map.mp ha
    rw [← hv]
    exact expQ_pos v
  · simpa using h

theorem sum_map_div_const (xs : List ℚ) (f : ℚ → ℚ) (c : ℚ) :
    (xs.map (fun v => f v / c)).sum = (xs.map f).sum / c := by
  induction xs with
  | nil => simp
  | cons x xs ih =>
      simp only [List.map_cons, List.sum_cons, ih]
      rw [add_div]

theorem softmaxQ_length (xs : List ℚ) : (softmaxQ xs).length = xs.length := by
  simp [softmaxQ]

theorem softmaxQ_nonneg (xs : List ℚ) (h : xs ≠ []) :
    ∀ y ∈ softmaxQ xs, 0 ≤ y := by
  intro y hy
  obtain ⟨v, _, hv⟩ := List.mem_map.mp hy
  rw [← hv]
  exact div_nonneg (le_of_lt (expQ_pos v)) (le_of_lt (sum_map_expQ_pos xs h))

theorem softmaxQ_sum (xs : List ℚ) (h : xs ≠ []) : (softmaxQ xs).sum = 1 := by
  unfold softmaxQ
  rw [sum_map_div_const]
  exact div_self (ne_of_gt (sum_map_expQ_pos xs h))

theorem argmaxIdx_lt_length (xs : List ℚ) (h : xs ≠ []) :
    argmaxIdx xs < xs.length := by
  rcases hx : argmaxP xs with _ | ⟨j, m⟩
  · cases xs with
    | nil => exact absurd rfl h
    | cons v vs => exact absurd hx (argmaxP_ne_none v vs)
  · have hspec := argmaxP_spec xs j m hx
    have hidx : argmaxIdx xs = j := by simp [argmaxIdx, hx]
    rw [hidx]
    exact hspec.1

theorem forward_concat_last (sh : List Nat) (ls : List LayerSpec)
    (ps : List LayerParams) (lyr : LayerSpec) (pl : LayerParams) (x y : Tensor)
    (hlen : ls.length = ps.length)
    (h : forward { inputShape := sh,
                   layers := ls ++ [lyr],
                   params := ps ++ [pl] } x = some y) :
    ∃ t, forwardLayer lyr pl t = some y := by
  unfold forward at h
  simp only at h
  rw [List.zip_append hlen] at h
  simp only [List.zip_cons_cons, List.zip_nil_left] at h
  rw [List.foldl_append, List.foldl_cons, List.foldl_nil] at h
  rcases hacc : ((List.zip ls ps).foldl
      (fun acc lp => acc.bind (forwardLayer lp.1 lp.2)) (some x)) with _ | t <;>
    rw [hacc] at h
  · simp at h
  · simp only [Option.some_bind] at h
    exact ⟨t, h⟩

theorem forwardLayer_dense_softmax_out (n : Int) (pl : LayerParams)
    (t : Tensor) (y : List ℚ)
    (h : forwardLayer (.dense n .softmax) pl t = some (.vec y)) :
    y.length = n.toNat ∧ (∀ v ∈ y, 0 ≤ v) ∧ (y ≠ [] → y.sum = 1) := by
  cases pl with
  | conv kernel b => simp [forwardLayer] at h
  | free => simp [forwardLayer] at h
  | dense w b =>
      cases t with
      | t3 g => simp [forwardLayer] at h
      | vec x =>
          simp only [forwardLayer] at h
          unfold denseApply at h
          by_cases hc : w.length = n.toNat ∧ b.length = n.toNat ∧
              ∀ r ∈ w, r.length = x.length
          · rw [if_pos hc] at h
            rw [Option.map_some'] at h
            simp only [Option.some.injEq, Tensor.vec.injEq] at h
            have hy : y = softmaxQ (List.zipWith (fun r bi => dot r x + bi) w b) := h.symm
            have hlen2 : (List.zipWith (fun r bi => dot r x + bi) w b).length = n.toNat := by
              rw [List.length_zipWith, hc.1, hc.2.1]
              exact Nat.min_self n.toNat
            refine ⟨?_, ?_, ?_⟩
            · rw [hy, softmaxQ_length, hlen2]
            · rcases hz : List.zipWith (fun r bi => dot r x + bi) w b with _ | ⟨z, zs⟩
              · rw [hy, hz]
                intro v hv
                simp [softmaxQ] at hv
              · rw [hy, hz]
                exact softmaxQ_nonneg (z :: zs) (by simp)
            · intro hne
              rw [hy]
              refine softmaxQ_sum _ ?_
              intro hz
              rw [hy, hz] at hne
              simp [softmaxQ] at hne
          · rw [if_neg hc] at h
            simp at h

/-- C10: because the final layer is Dense(n) with softmax activation, every
probability vector the forward pass returns is a probability distribution —
its length equals the final layer's unit count n, every entry is
non-negative, and the entries sum to 1 — so the arg-max-derived class index
is always a valid class below n. -/
theorem predict_probability_distribution (sh : List Nat) (ls : List LayerSpec)
    (ps : List LayerParams) (pl : LayerParams) (n : Int) (x : Tensor)
    (y : List ℚ) (hn : 0 < n) (hlen : ls.length = ps.length)
    (h : forward { inputShape := sh,
                   layers := ls ++ [ LayerSpec.dense n .softmax ],
                   params := ps ++ [pl] } x = some (.vec y)) :
    y.length = n.toNat ∧ (∀ v ∈ y, 0 ≤ v) ∧ y.sum = 1 ∧
      argmaxIdx y < n.toNat := by
  obtain ⟨t, ht⟩ := forward_concat_last sh ls ps (.dense n .softmax) pl x
    (.vec y) hlen h
  obtain ⟨hl, hnn, hs⟩ := forwardLayer_dense_softmax_out n pl t y ht
  have hpos : 0 < n.toNat := by omega
  have hy : y ≠ [] := by
    intro h0
    rw [h0] at hl
    simp at hl
    omega
  refine ⟨hl, hnn, hs hy, ?_⟩
  have hb := argmaxIdx_lt_length y hy
  rw [hl] at hb
  exact hb

/-- Witness for C10 at a two-unit softmax layer with identity weights on the
zero input: the output is [1/2, 1/2], a distribution over 2 classes. -/
theorem predict_probability_distribution_witness :
    ([ (1 : ℚ)/2, 1/2 ] : List ℚ).length = (2 : Int).toNat ∧
    ([ (1 : ℚ)/2, 1/2 ] : List ℚ).sum = 1 ∧
    argmaxIdx [ (1 : ℚ)/2, 1/2 ] < (2 : Int).toNat := by
  have h := predict_probability_distribution [ 2 ] [] []
    (.dense [ [ 1, 0 ], [ 0, 1 ] ] [ 0, 0 ]) 2 (.vec [ 0, 0 ])
    [ (1 : ℚ)/2, 1/2 ] (by norm_num) rfl
    (by
      norm_num [forward, forwardLayer, denseApply, applyAct, softmaxQ,
        expQ, dot]
      intro hq
      exact absurd (show (2 : Nat) = Int.toNat 2 by decide) hq)
  exact ⟨h.1, h.2.2.1, h.2.2.2⟩

end Harness
